import Mathlib

/-
Verification of the GoBLS12381 EIP-2333 key-derivation library.

Shallow embedding conventions:
* byte strings are `List Nat` (each entry a byte value);
* `big.Int` scalars are `Nat`;
* the external hash primitives (Go `crypto/sha256` and `golang.org/x/crypto/hkdf`)
  are abstracted as a `CryptoPrims` parameter: `sha256` is the digest function
  (always 32 bytes long, mirroring Go's `[32]byte` result type),
  `extract` is `hkdf.Extract(sha256.New, ikm, salt)` and `expandByte prk info i`
  is byte number `i` of the `hkdf.Expand(sha256.New, prk, info)` key stream.
  The expand reader refuses to produce more than `255 * 32` bytes, as the Go
  hkdf reader does; this is the only stream-read failure.
* the rejection-sampling loop of `deriveHKDFModR` is given fuel semantics:
  `none` means the loop is still running after the given number of iterations.
-/

namespace GoBLS12381

set_option maxRecDepth 1000000

/-- Order of the BLS12-381 private-key subgroup: the decimal constant `R` of the source. -/
def rBLS : Nat := 52435875175126190479447740508185965837690552500527637822603658699938581184513

/-- The constant `L = ceil((3 * ceil(log2(R))) / 16)` of the source. -/
def LBLS : Nat := 48

/-- ASCII bytes of the source constant `Salt = "BLS-SIG-KEYGEN-SALT-"`. -/
def saltBytes : List Nat := ("BLS-SIG-KEYGEN-SALT-".toList).map Char.toNat

/-- Model of `binary.BigEndian.PutUint16`. -/
def putUint16BE (n : Nat) : List Nat := [n / 256 % 256, n % 256]

/-- Model of `binary.BigEndian.PutUint32`. -/
def putUint32BE (n : Nat) : List Nat :=
  [n / 16777216 % 256, n / 65536 % 256, n / 256 % 256, n % 256]

/-- Model of `big.Int.SetBytes`: big-endian bytes to integer. -/
def bytesToNatBE (bs : List Nat) : Nat := bs.foldl (fun acc b => acc * 256 + b) 0

/-- Fuelled helper for `big.Int.Bytes`; the fuel only needs to dominate the
number of base-256 digits, and `natToBytesBE` passes the number itself. -/
def natToBytesBEAux : Nat → Nat → List Nat
  | 0, _ => []
  | _ + 1, 0 => []
  | fuel + 1, n + 1 => natToBytesBEAux fuel ((n + 1) / 256) ++ [(n + 1) % 256]

/-- Model of `big.Int.Bytes`: minimal big-endian encoding (empty for zero). -/
def natToBytesBE (n : Nat) : List Nat := natToBytesBEAux n n

/-- Source `flipBits`: XOR with the mask `(one << bitlen) - one`. -/
def flipBits (key : Nat) (bitlen : Nat) : Nat := key ^^^ ((1 <<< bitlen) - 1)

/-- Abstract interface to the external hashing code used by the source:
SHA-256 and the two HKDF stages. The `sha256_len` field records the shape
guarantee Go expresses with the fixed-size result type `[32]byte`. -/
structure CryptoPrims where
  sha256 : List Nat → List Nat
  extract : List Nat → List Nat → List Nat
  expandByte : List Nat → List Nat → Nat → Nat
  sha256_len : ∀ bs, (sha256 bs).length = 32

/-- Reading `len` bytes starting at stream offset `start` from the
`hkdf.Expand(sha256.New, prk, info)` reader: succeeds exactly when the read
stays within the reader's `255 * Size` byte limit. -/
def expandRead (C : CryptoPrims) (prk info : List Nat) (start len : Nat) : Option (List Nat) :=
  if start + len ≤ 255 * 32 then
    some ((List.range len).map fun i => C.expandByte prk info (start + i))
  else none

/-- The error values the source can return. -/
inductive DeriveErr where
  | invalidPath : DeriveErr
  | numSyntax : DeriveErr
  | numRange : DeriveErr
  | invalidSeed : DeriveErr
  | streamFail : DeriveErr
deriving DecidableEq

/-- Result of a Go `(value, error)` pair. -/
inductive DResult (α : Type) where
  | ok : α → DResult α
  | err : DeriveErr → DResult α
deriving DecidableEq

/-- The loop body and rejection-sampling loop of `deriveHKDFModR`, with fuel:
`none` means the loop has not finished within the given number of iterations. -/
def deriveHKDFModRAux (C : CryptoPrims) (ikm keyInfo : List Nat) : Nat → Option (DResult Nat)
  | 0 => none
  | fuel + 1 =>
    match expandRead C (C.extract ikm (C.sha256 saltBytes)) keyInfo 0 LBLS with
    | none => some (DResult.err DeriveErr.streamFail)
    | some okm =>
      let key := bytesToNatBE okm % rBLS
      if key = 0 then deriveHKDFModRAux C ikm keyInfo fuel
      else some (DResult.ok key)

/-- Source `deriveHKDFModR`: appends `0x00` to ikm and the big-endian 16-bit
encoding of `L` to the key info, then runs the rejection-sampling loop. The
loop body does not depend on the iteration number, so one unit of fuel decides
the call: `none` here means the first iteration produced zero, in which case
every later iteration does too (proved below) and the Go loop never exits. -/
def deriveHKDFModR (C : CryptoPrims) (ikm : List Nat) (keyInfo : List Nat) : Option (DResult Nat) :=
  deriveHKDFModRAux C (ikm ++ [0]) (keyInfo ++ putUint16BE LBLS) 1

/-- Source `isValidSeed`. -/
def isValidSeed (seed : List Nat) : Bool := decide (32 ≤ seed.length)

/-- Source `deriveMasterSecretKey`. -/
def deriveMasterSecretKey (C : CryptoPrims) (seed : List Nat) : Option (DResult Nat) :=
  if isValidSeed seed then deriveHKDFModR C seed []
  else some (DResult.err DeriveErr.invalidSeed)

/-- The chunk-reading loop of `deriveLamportSecretKeyFromIKM`: `count`
sequential 32-byte reads from the expand stream starting at offset `start`. -/
def readChunks (C : CryptoPrims) (prk info : List Nat) : Nat → Nat → Option (List (List Nat))
  | _, 0 => some []
  | start, count + 1 =>
    match expandRead C prk info start 32 with
    | none => none
    | some chunk =>
      match readChunks C prk info (start + 32) count with
      | none => none
      | some rest => some (chunk :: rest)

/-- Source `deriveLamportSecretKeyFromIKM`: extract, then read 255 sequential
32-byte chunks from the expansion stream (with `nil` context info). -/
def deriveLamportSecretKeyFromIKM (C : CryptoPrims) (ikm salt : List Nat) :
    Option (List (List Nat)) :=
  readChunks C (C.extract ikm salt) [] 0 255

/-- Source `deriveLamport0`: IKM is `parentKey.Bytes()`. -/
def deriveLamport0 (C : CryptoPrims) (parentKey : Nat) (salt : List Nat) :
    Option (List (List Nat)) :=
  deriveLamportSecretKeyFromIKM C (natToBytesBE parentKey) salt

/-- Source `deriveLamport1`: IKM is `flipBits(parentKey, 256).Bytes()`. -/
def deriveLamport1 (C : CryptoPrims) (parentKey : Nat) (salt : List Nat) :
    Option (List (List Nat)) :=
  deriveLamportSecretKeyFromIKM C (natToBytesBE (flipBits parentKey 256)) salt

/-- Model of Go `copy(dst[start:stop], src)` on a byte buffer. -/
def copyInto (dst : List Nat) (start stop : Nat) (src : List Nat) : List Nat :=
  let n := min (stop - start) src.length
  dst.take start ++ src.take n ++ dst.drop (start + n)

/-- The buffer-filling loop of `deriveLamportPublicKeyFromParentKey`: at index
`i` it writes `sha256(lamport0[i])` at offset `i*32` and `sha256(lamport1[i])`
at offset `i*32 + 255*32` of the composed buffer. -/
def composeLoop (C : CryptoPrims) (l0 l1 : List (List Nat)) : List Nat → Nat → Nat → List Nat
  | buf, _, 0 => buf
  | buf, i, count + 1 =>
    let buf1 := copyInto buf (i * 32) ((i + 1) * 32) (C.sha256 (l0.getD i []))
    let buf2 := copyInto buf1 (i * 32 + 255 * 32) ((i + 1) * 32 + 255 * 32)
      (C.sha256 (l1.getD i []))
    composeLoop C l0 l1 buf2 (i + 1) count

/-- The composed (uncompressed) Lamport public key buffer of the source:
a `2*255*32`-byte buffer filled by `composeLoop`. -/
def composeLamport (C : CryptoPrims) (l0 l1 : List (List Nat)) : List Nat :=
  composeLoop C l0 l1 (List.replicate (2 * 255 * 32) 0) 0 255

/-- Source `deriveLamportPublicKeyFromParentKey`. -/
def deriveLamportPublicKeyFromParentKey (C : CryptoPrims) (parentKey : Nat) (index : Nat) :
    Option (List Nat) :=
  let salt := putUint32BE index
  match deriveLamport0 C parentKey salt with
  | none => none
  | some l0 =>
    match deriveLamport1 C parentKey salt with
    | none => none
    | some l1 => some (C.sha256 (composeLamport C l0 l1))

/-- Source `deriveChildSecretKey`: Lamport public key, then `deriveHKDFModR`
with no key info. A failed chunk read surfaces as the stream failure error. -/
def deriveChildSecretKey (C : CryptoPrims) (parentKey : Nat) (index : Nat) :
    Option (DResult Nat) :=
  match deriveLamportPublicKeyFromParentKey C parentKey index with
  | none => some (DResult.err DeriveErr.streamFail)
  | some lamportPK => deriveHKDFModR C lamportPK []

/-- Model of Go `strings.Split(path, "/")`. -/
def splitOnSlash : List Char → List (List Char)
  | [] => [[]]
  | c :: rest =>
    if c = '/' then [] :: splitOnSlash rest
    else
      match splitOnSlash rest with
      | [] => [[c]]
      | s :: ss => (c :: s) :: ss

/-- Model of the source regular expression check `^m(\/[0-9]{1,})*$`:
the string splits on `/` into a leading literal `m` followed by nonempty
runs of decimal digits. -/
def matchesPathGrammar (cs : List Char) : Bool :=
  match splitOnSlash cs with
  | [] => false
  | root :: rest =>
    decide (root = ['m']) && rest.all fun s => !s.isEmpty && s.all Char.isDigit

/-- Decimal digit run to integer. -/
def digitsToNat (s : List Char) : Nat := s.foldl (fun acc c => acc * 10 + (c.toNat - 48)) 0

/-- Model of `strconv.ParseUint(s, 10, 32)`: syntax error on an empty or
non-digit string, range error when the value does not fit 32 bits. -/
def parseUint32 (s : List Char) : DResult Nat :=
  if s.isEmpty then DResult.err DeriveErr.numSyntax
  else if !(s.all Char.isDigit) then DResult.err DeriveErr.numSyntax
  else if digitsToNat s < 4294967296 then DResult.ok (digitsToNat s)
  else DResult.err DeriveErr.numRange

/-- The index-collecting loop of `parsePath`: parse each node after the root,
propagating the first `ParseUint` error. -/
def parseIndices : List (List Char) → DResult (List Nat)
  | [] => DResult.ok []
  | s :: rest =>
    match parseUint32 s with
    | DResult.err e => DResult.err e
    | DResult.ok v =>
      match parseIndices rest with
      | DResult.err e => DResult.err e
      | DResult.ok vs => DResult.ok (v :: vs)

/-- Model of `strings.ReplaceAll(path, " ", "")`: remove every space character. -/
def stripSpaces (cs : List Char) : List Char := cs.filter fun c => decide (c ≠ ' ')

/-- Source `parsePath`: strip spaces, check the path grammar, then parse every
node after the root marker as a 32-bit unsigned integer. -/
def parsePath (cs : List Char) : DResult (List Nat) :=
  let t := stripSpaces cs
  if matchesPathGrammar t then parseIndices (splitOnSlash t).tail
  else DResult.err DeriveErr.invalidPath

/-- The child-derivation loop of `DeriveKey`, folding the parsed indices
left to right from the master key. -/
def foldChildren (C : CryptoPrims) : Nat → List Nat → Option (DResult Nat)
  | key, [] => some (DResult.ok key)
  | key, index :: rest =>
    match deriveChildSecretKey C key index with
    | none => none
    | some (DResult.err e) => some (DResult.err e)
    | some (DResult.ok k) => foldChildren C k rest

/-- Source `DeriveKey`: parse the path, derive the master key, then fold the
child-derivation step over the indices. -/
def DeriveKey (C : CryptoPrims) (seed : List Nat) (path : List Char) : Option (DResult Nat) :=
  match parsePath path with
  | DResult.err e => some (DResult.err e)
  | DResult.ok indices =>
    match deriveMasterSecretKey C seed with
    | none => none
    | some (DResult.err e) => some (DResult.err e)
    | some (DResult.ok key) => foldChildren C key indices

/-- The value computed by one iteration of the rejection-sampling loop on
already-extended inputs: 48 stream bytes read as a big-endian integer, mod r. -/
def hkdfOnceValue (C : CryptoPrims) (ikm keyInfo : List Nat) : Nat :=
  bytesToNatBE ((List.range LBLS).map fun i =>
    C.expandByte (C.extract ikm (C.sha256 saltBytes)) keyInfo i) % rBLS

/-- The pipeline claimed for `deriveHKDFModR`, written from the claim's words:
salt is SHA-256 of the ASCII salt string, a single `0x00` byte is appended to
the ikm, the big-endian 16-bit encoding of `L = 48` is appended to the key
info, HKDF-Extract then HKDF-Expand yield exactly 48 bytes, which are read as
a big-endian integer and reduced modulo the stated decimal group order. -/
def specHKDFModRValue (C : CryptoPrims) (ikm keyInfo : List Nat) : Nat :=
  let salt := C.sha256 saltBytes
  let prk := C.extract (ikm ++ [0]) salt
  let okm := (List.range 48).map fun i => C.expandByte prk (keyInfo ++ [0, 48]) i
  bytesToNatBE okm %
    52435875175126190479447740508185965837690552500527637822603658699938581184513

/-- The path-parsing pipeline claimed for `parsePath`, written from the
claim's words: remove whitespace (not just spaces), then check the grammar
and parse the segments. -/
def parsePathClaimWS (cs : List Char) : DResult (List Nat) :=
  let t := cs.filter fun c => !c.isWhitespace
  if matchesPathGrammar t then parseIndices (splitOnSlash t).tail
  else DResult.err DeriveErr.invalidPath

/-- The rejection-sampling loop of `deriveHKDFModR` never exits on these
inputs: no amount of fuel makes it stop. -/
def loopsForever (C : CryptoPrims) (ikm keyInfo : List Nat) : Prop :=
  ∀ fuel, deriveHKDFModRAux C (ikm ++ [0]) (keyInfo ++ putUint16BE LBLS) fuel = none

/-- Go-style sequencing of a fallible, possibly diverging step. -/
def resBind (x : Option (DResult Nat)) (f : Nat → Option (DResult Nat)) : Option (DResult Nat) :=
  match x with
  | none => none
  | some (DResult.err e) => some (DResult.err e)
  | some (DResult.ok k) => f k

/-- A concrete instantiation of the hash primitives used to exercise the
theorems on closed inputs: every expand-stream byte is `1`. -/
def trivialPrims : CryptoPrims where
  sha256 := fun _ => List.replicate 32 1
  extract := fun _ _ => []
  expandByte := fun _ _ _ => 1
  sha256_len := fun _ => List.length_replicate 32 1

/-- A degenerate instantiation of the hash primitives whose expand stream is
all zero bytes, so the rejection-sampling loop never sees a nonzero value. -/
def zeroPrims : CryptoPrims where
  sha256 := fun _ => List.replicate 32 0
  extract := fun _ _ => []
  expandByte := fun _ _ _ => 0
  sha256_len := fun _ => List.length_replicate 32 0

/-- A 32-byte seed used for concrete witnesses. -/
def seedW : List Nat := List.replicate 32 7

/-- The scalar which every `deriveHKDFModR` call returns under `trivialPrims`:
48 bytes of value `1`, read big-endian, reduced mod r. -/
def VW : Nat := bytesToNatBE (List.replicate 48 1) % rBLS

/-- One step of the rejection-sampling loop: a 48-byte read always succeeds,
and the loop exits exactly when the reduced value is nonzero. -/
theorem hkdfAux_succ (C : CryptoPrims) (ikm keyInfo : List Nat) (fuel : Nat) :
    deriveHKDFModRAux C ikm keyInfo (fuel + 1)
      = if hkdfOnceValue C ikm keyInfo = 0 then deriveHKDFModRAux C ikm keyInfo fuel
        else some (DResult.ok (hkdfOnceValue C ikm keyInfo)) := by
  simp [deriveHKDFModRAux, expandRead, hkdfOnceValue, LBLS]

/-- On extended inputs, the claimed pipeline value coincides with the loop
body's value. -/
theorem specHKDFModRValue_eq (C : CryptoPrims) (ikm keyInfo : List Nat) :
    specHKDFModRValue C ikm keyInfo
      = hkdfOnceValue C (ikm ++ [0]) (keyInfo ++ putUint16BE LBLS) := rfl

/-- When the loop body's value is zero, no amount of fuel finishes the loop. -/
theorem hkdfAux_none_of_zero (C : CryptoPrims) (ikm keyInfo : List Nat)
    (h : hkdfOnceValue C ikm keyInfo = 0) :
    ∀ fuel, deriveHKDFModRAux C ikm keyInfo fuel = none := by
  intro fuel
  induction fuel with
  | zero => rfl
  | succ n ih => rw [hkdfAux_succ, if_pos h]; exact ih

/-- Any `ok` result of the loop is nonzero and reduced mod r. -/
theorem hkdfAux_ok_bounds (C : CryptoPrims) (ikm keyInfo : List Nat) :
    ∀ fuel k, deriveHKDFModRAux C ikm keyInfo fuel = some (DResult.ok k) →
      0 < k ∧ k < rBLS := by
  intro fuel
  induction fuel with
  | zero => intro k h; exact absurd h (by simp [deriveHKDFModRAux])
  | succ n ih =>
    intro k h
    rw [hkdfAux_succ] at h
    by_cases hz : hkdfOnceValue C ikm keyInfo = 0
    · rw [if_pos hz] at h; exact ih k h
    · rw [if_neg hz] at h
      have hk : hkdfOnceValue C ikm keyInfo = k := by
        injection h with h'; injection h'
      refine ⟨?_, ?_⟩
      · rw [← hk]; exact Nat.pos_of_ne_zero hz
      · rw [← hk, hkdfOnceValue]
        exact Nat.mod_lt _ (by decide)

/-- The loop never reports the invalid-seed error. -/
theorem hkdfAux_ne_invalidSeed (C : CryptoPrims) (ikm keyInfo : List Nat) :
    ∀ fuel, deriveHKDFModRAux C ikm keyInfo fuel
      ≠ some (DResult.err DeriveErr.invalidSeed) := by
  intro fuel
  induction fuel with
  | zero => simp [deriveHKDFModRAux]
  | succ n ih =>
    rw [hkdfAux_succ]
    by_cases hz : hkdfOnceValue C ikm keyInfo = 0
    · rw [if_pos hz]; exact ih
    · rw [if_neg hz]; simp

/-- C1: for every input key material and key info, `deriveHKDFModR` computes
exactly the claimed pipeline: SHA-256 of the ASCII salt string as salt, a
`0x00` byte appended to the ikm, the big-endian 16-bit encoding of `L = 48`
appended to the key info, HKDF-Extract then HKDF-Expand producing exactly 48
bytes, read as a big-endian integer and reduced modulo the stated group
order r; the loop returns that value when it is nonzero and otherwise retries
(identically) forever. -/
theorem claim_C1_hkdf_mod_r_pipeline (C : CryptoPrims) (ikm keyInfo : List Nat) :
    deriveHKDFModR C ikm keyInfo
      = if specHKDFModRValue C ikm keyInfo = 0 then none
        else some (DResult.ok (specHKDFModRValue C ikm keyInfo)) := by
  rw [deriveHKDFModR, hkdfAux_succ, specHKDFModRValue_eq]
  by_cases hz : hkdfOnceValue C (ikm ++ [0]) (keyInfo ++ putUint16BE LBLS) = 0
  · rw [if_pos hz, if_pos hz]; rfl
  · rw [if_neg hz, if_neg hz]

/-- Bounds transported through `deriveHKDFModR`. -/
theorem hkdf_ok_bounds (C : CryptoPrims) (ikm keyInfo : List Nat) (k : Nat)
    (h : deriveHKDFModR C ikm keyInfo = some (DResult.ok k)) : 0 < k ∧ k < rBLS :=
  hkdfAux_ok_bounds C (ikm ++ [0]) (keyInfo ++ putUint16BE LBLS) 1 k h

/-- Bounds transported through `deriveMasterSecretKey`. -/
theorem master_ok_bounds (C : CryptoPrims) (seed : List Nat) (k : Nat)
    (h : deriveMasterSecretKey C seed = some (DResult.ok k)) : 0 < k ∧ k < rBLS := by
  rw [deriveMasterSecretKey] at h
  by_cases hv : isValidSeed seed
  · rw [if_pos hv] at h; exact hkdf_ok_bounds C seed [] k h
  · rw [if_neg hv] at h; exact absurd h (by simp)

/-- Bounds transported through `deriveChildSecretKey`. -/
theorem child_ok_bounds (C : CryptoPrims) (p : Nat) (i : Nat) (k : Nat)
    (h : deriveChildSecretKey C p i = some (DResult.ok k)) : 0 < k ∧ k < rBLS := by
  rw [deriveChildSecretKey] at h
  cases hpk : deriveLamportPublicKeyFromParentKey C p i with
  | none => rw [hpk] at h; exact absurd h (by simp)
  | some pk => rw [hpk] at h; exact hkdf_ok_bounds C pk [] k h

/-- Bounds preserved by the child-derivation fold. -/
theorem foldChildren_ok_bounds (C : CryptoPrims) :
    ∀ (indices : List Nat) (key k : Nat),
      foldChildren C key indices = some (DResult.ok k) →
      0 < key ∧ key < rBLS → 0 < k ∧ k < rBLS := by
  intro indices
  induction indices with
  | nil =>
    intro key k h hb
    have : key = k := by
      simp only [foldChildren] at h
      injection h with h'; injection h'
    rw [← this]; exact hb
  | cons i rest ih =>
    intro key k h _
    simp only [foldChildren] at h
    cases hc : deriveChildSecretKey C key i with
    | none => rw [hc] at h; exact absurd h (by simp)
    | some d =>
      rw [hc] at h
      cases d with
      | err e => exact absurd h (by simp)
      | ok k' => exact ih k' k h (child_ok_bounds C key i k' hc)

/-- C5: every scalar successfully returned by the system — by
`deriveHKDFModR`, hence every master key, every child key, and every final
`DeriveKey` result — satisfies `0 < key < r`. -/
theorem claim_C5_range_invariant (C : CryptoPrims) :
    (∀ ikm keyInfo k, deriveHKDFModR C ikm keyInfo = some (DResult.ok k) →
        0 < k ∧ k < rBLS)
    ∧ (∀ seed k, deriveMasterSecretKey C seed = some (DResult.ok k) →
        0 < k ∧ k < rBLS)
    ∧ (∀ p i k, deriveChildSecretKey C p i = some (DResult.ok k) →
        0 < k ∧ k < rBLS)
    ∧ (∀ seed path k, DeriveKey C seed path = some (DResult.ok k) →
        0 < k ∧ k < rBLS) := by
  refine ⟨hkdf_ok_bounds C, master_ok_bounds C, child_ok_bounds C, ?_⟩
  intro seed path k h
  rw [DeriveKey] at h
  cases hp : parsePath path with
  | err e => rw [hp] at h; exact absurd h (by simp)
  | ok indices =>
    rw [hp] at h
    cases hm : deriveMasterSecretKey C seed with
    | none => rw [hm] at h; exact absurd h (by simp)
    | some d =>
      rw [hm] at h
      cases d with
      | err e => exact absurd h (by simp)
      | ok key =>
        exact foldChildren_ok_bounds C indices key k h (master_ok_bounds C seed key hm)

/-- Witness for C5: a concrete full derivation under `trivialPrims` returns a
scalar strictly between 0 and r. -/
theorem claim_C5_witness : 0 < VW ∧ VW < rBLS :=
  (claim_C5_range_invariant trivialPrims).2.2.2 seedW ("m/0/0".toList) VW
    (by set_option maxRecDepth 1000000 in decide)

/-- C6 (counterexample): the rejection-sampling loop is not a bounded loop
that otherwise fails immediately: when the expand stream reduces to zero
mod r (here: an all-zero key stream), the call neither completes nor fails —
no number of iterations finishes it. -/
theorem claim_C6_counterexample :
    loopsForever zeroPrims [] [] ∧ deriveHKDFModR zeroPrims [] [] = none := by
  have hz : hkdfOnceValue zeroPrims ([] ++ [0]) ([] ++ putUint16BE LBLS) = 0 := by decide
  exact ⟨fun fuel => hkdfAux_none_of_zero zeroPrims _ _ hz fuel,
    hkdfAux_none_of_zero zeroPrims _ _ hz 1⟩

/-- C6 (amended): the loop body of `deriveHKDFModR` is deterministic, so each
call either returns after exactly one iteration — whenever the 48-byte HKDF
output is nonzero mod r — or loops forever when it is zero; the 48-byte
stream read itself can never fail (it is within the expand reader's limit),
and on a stream-read failure the loop body would return the failure
immediately rather than retry. -/
theorem claim_C6_loop_behavior (C : CryptoPrims) (ikm keyInfo : List Nat) :
    (specHKDFModRValue C ikm keyInfo ≠ 0 →
      deriveHKDFModR C ikm keyInfo
        = some (DResult.ok (specHKDFModRValue C ikm keyInfo)))
    ∧ (specHKDFModRValue C ikm keyInfo = 0 → loopsForever C ikm keyInfo)
    ∧ (expandRead C (C.extract (ikm ++ [0]) (C.sha256 saltBytes))
        (keyInfo ++ putUint16BE LBLS) 0 LBLS).isSome = true
    ∧ (∀ fuel, deriveHKDFModRAux C (ikm ++ [0]) (keyInfo ++ putUint16BE LBLS) (fuel + 1)
          = deriveHKDFModR C ikm keyInfo) := by
  refine ⟨?_, ?_, ?_, ?_⟩
  · intro h
    rw [claim_C1_hkdf_mod_r_pipeline, if_neg h]
  · intro h fuel
    exact hkdfAux_none_of_zero C _ _ (by rw [← specHKDFModRValue_eq]; exact h) fuel
  · simp [expandRead, LBLS]
  · intro fuel
    rw [deriveHKDFModR, hkdfAux_succ, hkdfAux_succ]
    by_cases hz : hkdfOnceValue C (ikm ++ [0]) (keyInfo ++ putUint16BE LBLS) = 0
    · rw [if_pos hz, if_pos hz,
        hkdfAux_none_of_zero C _ _ hz fuel, hkdfAux_none_of_zero C _ _ hz 0]
    · rw [if_neg hz, if_neg hz]

/-- Witness for C6: under `trivialPrims` the call returns after one
iteration with the pipeline value; under `zeroPrims` five iterations of fuel
still leave the loop running. -/
theorem claim_C6_witness :
    deriveHKDFModR trivialPrims [] []
      = some (DResult.ok (specHKDFModRValue trivialPrims [] []))
    ∧ deriveHKDFModRAux zeroPrims ([] ++ [0]) ([] ++ putUint16BE LBLS) 5 = none :=
  ⟨(claim_C6_loop_behavior trivialPrims [] []).1 (by decide),
   (claim_C6_loop_behavior zeroPrims [] []).2.1 (by decide) 5⟩

/-- C7: `deriveMasterSecretKey` fails with the invalid-seed error exactly
when the seed is shorter than 32 bytes, before any hashing occurs; otherwise
it delegates to `deriveHKDFModR` with the seed as input key material and no
key info. -/
theorem claim_C7_seed_validation (C : CryptoPrims) (seed : List Nat) :
    (seed.length < 32 →
      deriveMasterSecretKey C seed = some (DResult.err DeriveErr.invalidSeed))
    ∧ (32 ≤ seed.length →
      deriveMasterSecretKey C seed = deriveHKDFModR C seed [])
    ∧ (deriveMasterSecretKey C seed = some (DResult.err DeriveErr.invalidSeed) →
      seed.length < 32) := by
  refine ⟨?_, ?_, ?_⟩
  · intro h
    rw [deriveMasterSecretKey, if_neg]
    simp [isValidSeed]; omega
  · intro h
    rw [deriveMasterSecretKey, if_pos]
    simpa [isValidSeed] using h
  · intro h
    by_contra hc
    push_neg at hc
    rw [deriveMasterSecretKey, if_pos (by simpa [isValidSeed] using hc)] at h
    exact hkdfAux_ne_invalidSeed C (seed ++ [0]) ([] ++ putUint16BE LBLS) 1 h

/-- Witness for C7: a 31-byte seed fails with the invalid-seed error and a
32-byte seed delegates to `deriveHKDFModR` (and, under `trivialPrims`,
succeeds). -/
theorem claim_C7_witness :
    deriveMasterSecretKey trivialPrims (List.replicate 31 7)
      = some (DResult.err DeriveErr.invalidSeed)
    ∧ deriveMasterSecretKey trivialPrims seedW = deriveHKDFModR trivialPrims seedW []
    ∧ deriveMasterSecretKey trivialPrims seedW = some (DResult.ok VW) :=
  ⟨(claim_C7_seed_validation trivialPrims (List.replicate 31 7)).1 (by decide),
   (claim_C7_seed_validation trivialPrims seedW).2.1 (by decide),
   by decide⟩

/-- C9: `DeriveKey` validates the path before the seed: whenever path parsing
fails, the parse error is returned unchanged, whatever the seed — in
particular a short seed together with an invalid path yields the
invalid-path error — and no key is returned on any error. -/
theorem claim_C9_path_before_seed (C : CryptoPrims) (seed : List Nat)
    (path : List Char) (e : DeriveErr) (h : parsePath path = DResult.err e) :
    DeriveKey C seed path = some (DResult.err e)
    ∧ ∀ k, DeriveKey C seed path ≠ some (DResult.ok k) := by
  have hd : DeriveKey C seed path = some (DResult.err e) := by
    rw [DeriveKey, h]
  exact ⟨hd, fun k hk => by rw [hd] at hk; exact absurd hk (by simp)⟩

/-- Witness for C9: an invalid path together with a 31-byte (invalid) seed
returns the invalid-path error, not the invalid-seed error. -/
theorem claim_C9_witness :
    DeriveKey trivialPrims (List.replicate 31 7) ("1/2".toList)
      = some (DResult.err DeriveErr.invalidPath)
    ∧ DeriveKey trivialPrims (List.replicate 31 7) ("1/2".toList)
      ≠ some (DResult.err DeriveErr.invalidSeed) :=
  ⟨(claim_C9_path_before_seed trivialPrims (List.replicate 31 7) ("1/2".toList)
      DeriveErr.invalidPath (by decide)).1,
   by decide⟩

/-- Right identity of the result sequencing. -/
theorem resBind_ok_right (x : Option (DResult Nat)) :
    resBind x (fun k => some (DResult.ok k)) = x := by
  cases x with
  | none => rfl
  | some d => cases d <;> rfl

/-- Associativity of the result sequencing. -/
theorem resBind_assoc (x : Option (DResult Nat)) (f g : Nat → Option (DResult Nat)) :
    resBind (resBind x f) g = resBind x fun k => resBind (f k) g := by
  cases x with
  | none => rfl
  | some d => cases d <;> rfl

/-- Unfolding the child fold one index at a time. -/
theorem foldChildren_cons (C : CryptoPrims) (key i : Nat) (rest : List Nat) :
    foldChildren C key (i :: rest)
      = resBind (deriveChildSecretKey C key i) fun k => foldChildren C k rest := by
  simp only [foldChildren, resBind]

/-- `DeriveKey` on a successfully parsed path is the master key bound to the
child fold. -/
theorem DeriveKey_eq_fold (C : CryptoPrims) (seed : List Nat) (path : List Char)
    (indices : List Nat) (hp : parsePath path = DResult.ok indices) :
    DeriveKey C seed path
      = resBind (deriveMasterSecretKey C seed) fun k => foldChildren C k indices := by
  rw [DeriveKey, hp]
  cases hm : deriveMasterSecretKey C seed with
  | none => rfl
  | some d => cases d <;> rfl

/-- C4: for a seed of at least 32 bytes and a valid path, `DeriveKey` is the
strict left-to-right fold of `deriveChildSecretKey` over the parsed indices
starting from the master key; a two-index path is two sequenced child
derivations from the master key, and the bare root path returns the master
key unmodified. -/
theorem claim_C4_fold_structure (C : CryptoPrims) (seed : List Nat) (path : List Char)
    (indices : List Nat) (hseed : 32 ≤ seed.length)
    (hp : parsePath path = DResult.ok indices) :
    (DeriveKey C seed path
      = resBind (deriveMasterSecretKey C seed) fun k => foldChildren C k indices)
    ∧ (∀ a b, indices = [a, b] →
        DeriveKey C seed path
          = resBind (resBind (deriveMasterSecretKey C seed)
              (fun k => deriveChildSecretKey C k a))
              fun k => deriveChildSecretKey C k b)
    ∧ (indices = [] → DeriveKey C seed path = deriveMasterSecretKey C seed) := by
  refine ⟨DeriveKey_eq_fold C seed path indices hp, ?_, ?_⟩
  · intro a b hab
    rw [DeriveKey_eq_fold C seed path indices hp, hab, resBind_assoc]
    congr 1
    funext k
    rw [foldChildren_cons]
    congr 1
    funext k'
    rw [foldChildren_cons]
    simp only [foldChildren]
    exact resBind_ok_right _
  · intro hnil
    rw [DeriveKey_eq_fold C seed path indices hp, hnil]
    exact resBind_ok_right _

/-- Witness for C4: under `trivialPrims`, the path `m/0/0` is two sequenced
child derivations from the master key, and the path `m` returns the master
key unmodified. -/
theorem claim_C4_witness :
    DeriveKey trivialPrims seedW ("m/0/0".toList)
      = resBind (resBind (deriveMasterSecretKey trivialPrims seedW)
          (fun k => deriveChildSecretKey trivialPrims k 0))
          (fun k => deriveChildSecretKey trivialPrims k 0)
    ∧ DeriveKey trivialPrims seedW ("m".toList)
      = deriveMasterSecretKey trivialPrims seedW :=
  ⟨(claim_C4_fold_structure trivialPrims seedW ("m/0/0".toList) [0, 0]
      (by decide) (by decide)).2.1 0 0 rfl,
   (claim_C4_fold_structure trivialPrims seedW ("m".toList) []
      (by decide) (by decide)).2.2 rfl⟩

/-- The fuel argument of `natToBytesBEAux` is irrelevant once it dominates
the encoded number. -/
theorem natToBytesBEAux_congr :
    ∀ f1 f2 n, n ≤ f1 → n ≤ f2 → natToBytesBEAux f1 n = natToBytesBEAux f2 n := by
  intro f1
  induction f1 with
  | zero =>
    intro f2 n h1 _
    have hn : n = 0 := Nat.le_zero.mp h1
    subst hn
    cases f2 <;> rfl
  | succ k ih =>
    intro f2 n h1 h2
    cases n with
    | zero => cases f2 <;> rfl
    | succ m =>
      cases f2 with
      | zero => omega
      | succ j =>
        show natToBytesBEAux k ((m + 1) / 256) ++ [(m + 1) % 256]
          = natToBytesBEAux j ((m + 1) / 256) ++ [(m + 1) % 256]
        congr 1
        have hq : (m + 1) / 256 ≤ m := by
          have := Nat.div_lt_self (Nat.succ_pos m) (by decide : 1 < 256)
          omega
        exact ih j ((m + 1) / 256) (by omega) (by omega)

/-- Unfolding `big.Int.Bytes` for a positive number: the last byte is the
low base-256 digit. -/
theorem natToBytesBE_succ (n : Nat) (h : 0 < n) :
    natToBytesBE n = natToBytesBE (n / 256) ++ [n % 256] := by
  obtain ⟨m, rfl⟩ : ∃ m, n = m + 1 := ⟨n - 1, by omega⟩
  show natToBytesBEAux m ((m + 1) / 256) ++ [(m + 1) % 256]
    = natToBytesBEAux ((m + 1) / 256) ((m + 1) / 256) ++ [(m + 1) % 256]
  congr 1
  have hq : (m + 1) / 256 ≤ m := by
    have := Nat.div_lt_self (Nat.succ_pos m) (by decide : 1 < 256)
    omega
  exact natToBytesBEAux_congr m ((m + 1) / 256) ((m + 1) / 256) hq (Nat.le_refl _)

/-- Appending a final byte multiplies the big-endian value by 256. -/
theorem bytesToNatBE_append (xs : List Nat) (b : Nat) :
    bytesToNatBE (xs ++ [b]) = bytesToNatBE xs * 256 + b := by
  simp [bytesToNatBE, List.foldl_append]

/-- `big.Int.Bytes` followed by `big.Int.SetBytes` is the identity: the
minimal big-endian encoding encodes its input. -/
theorem natToBytesBE_roundtrip : ∀ n, bytesToNatBE (natToBytesBE n) = n := by
  intro n
  induction n using Nat.strong_induction_on with
  | _ n ih =>
    by_cases h : n = 0
    · subst h; rfl
    · rw [natToBytesBE_succ n (Nat.pos_of_ne_zero h), bytesToNatBE_append,
        ih (n / 256) (Nat.div_lt_self (Nat.pos_of_ne_zero h) (by decide))]
      omega

/-- The minimal big-endian encoding of `n < 256 ^ k` has at most `k` bytes. -/
theorem natToBytesBE_length_le : ∀ k n, n < 256 ^ k → (natToBytesBE n).length ≤ k := by
  intro k
  induction k with
  | zero =>
    intro n h
    have hn : n = 0 := by simpa using Nat.lt_one_iff.mp h
    subst hn
    simp [natToBytesBE, natToBytesBEAux]
  | succ j ih =>
    intro n h
    by_cases hz : n = 0
    · subst hz; simp [natToBytesBE, natToBytesBEAux]
    · rw [natToBytesBE_succ n (Nat.pos_of_ne_zero hz), List.length_append]
      have hd : n / 256 < 256 ^ j := by
        rw [Nat.div_lt_iff_lt_mul (by decide : 0 < 256)]
        calc n < 256 ^ (j + 1) := h
        _ = 256 ^ j * 256 := Nat.pow_succ 256 j
      have := ih (n / 256) hd
      simp only [List.length_cons, List.length_nil]
      omega

/-- The minimal big-endian encoding of `n ≥ 256 ^ k` has more than `k`
bytes. -/
theorem natToBytesBE_length_gt : ∀ k n, 256 ^ k ≤ n → k < (natToBytesBE n).length := by
  intro k
  induction k with
  | zero =>
    intro n h
    rw [natToBytesBE_succ n h, List.length_append]
    simp
  | succ j ih =>
    intro n h
    have hpos : 0 < n := Nat.lt_of_lt_of_le (Nat.pos_pow_of_pos _ (by decide)) h
    rw [natToBytesBE_succ n hpos, List.length_append]
    have hd : 256 ^ j ≤ n / 256 := by
      rw [Nat.le_div_iff_mul_le (by decide : 0 < 256)]
      calc 256 ^ j * 256 = 256 ^ (j + 1) := (Nat.pow_succ 256 j).symm
      _ ≤ n := h
    have := ih (n / 256) hd
    simp only [List.length_cons, List.length_nil]
    omega

/-- The minimal big-endian encoding has no leading zero byte. -/
theorem natToBytesBE_head_ne_zero :
    ∀ n, 0 < n → ∃ b l, natToBytesBE n = b :: l ∧ b ≠ 0 := by
  intro n
  induction n using Nat.strong_induction_on with
  | _ n ih =>
    intro hpos
    rw [natToBytesBE_succ n hpos]
    by_cases hq : n / 256 = 0
    · rw [hq]
      exact ⟨n % 256, [], by simp [natToBytesBE, natToBytesBEAux], by omega⟩
    · obtain ⟨b, l, hb, hbne⟩ :=
        ih (n / 256) (Nat.div_lt_self hpos (by decide)) (Nat.pos_of_ne_zero hq)
      exact ⟨b, l ++ [n % 256], by rw [hb]; rfl, hbne⟩

/-- `flipBits` with width `b` is XOR with the all-ones mask `2 ^ b - 1`. -/
theorem flipBits_eq_xor (k b : Nat) : flipBits k b = k ^^^ (2 ^ b - 1) := by
  simp [flipBits, Nat.shiftLeft_eq]

/-- Flipping a scalar below `2 ^ 255` within a 256-bit width sets bit 255. -/
theorem flipBits256_lb (k : Nat) (h : k < 2 ^ 255) : 2 ^ 255 ≤ flipBits k 256 := by
  rw [flipBits_eq_xor]
  by_contra hc
  push_neg at hc
  have h1 : (k ^^^ (2 ^ 256 - 1)).testBit 255 = false := Nat.testBit_lt_two_pow hc
  have h2 : k.testBit 255 = false := Nat.testBit_lt_two_pow h
  rw [Nat.testBit_xor, h2, Nat.testBit_two_pow_sub_one] at h1
  simp at h1

/-- Flipping within a 256-bit width stays below `2 ^ 256`. -/
theorem flipBits256_ub (k : Nat) (h : k < 2 ^ 256) : flipBits k 256 < 2 ^ 256 := by
  rw [flipBits_eq_xor]
  exact Nat.xor_lt_two_pow h
    (Nat.sub_lt (Nat.pos_pow_of_pos _ (by decide)) (by decide))

/-- The 256-bit flip of any valid scalar always re-encodes to exactly 32
bytes. -/
theorem flip_length_32 (k : Nat) (h : k < 2 ^ 255) :
    (natToBytesBE (flipBits k 256)).length = 32 := by
  have e1 : (256 : Nat) ^ 31 = 2 ^ 248 := by norm_num
  have e2 : (256 : Nat) ^ 32 = 2 ^ 256 := by norm_num
  have h1 : 256 ^ 31 ≤ flipBits k 256 := by
    rw [e1]
    exact Nat.le_trans (Nat.pow_le_pow_right (by decide) (by decide))
      (flipBits256_lb k h)
  have h2 : flipBits k 256 < 256 ^ 32 := by
    rw [e2]
    exact flipBits256_ub k (Nat.lt_trans h (by norm_num))
  have := natToBytesBE_length_le 32 _ h2
  have := natToBytesBE_length_gt 31 _ h1
  omega

/-- C3: in every derivation step, the `lamport0` branch feeds the minimal
big-endian encoding of the unflipped parent scalar to the chunk expansion,
while the `lamport1` branch feeds the encoding of the parent XORed with the
all-ones 256-bit mask `2 ^ 256 - 1`; the unflipped encoding carries no
leading zero padding (and round-trips to the scalar), whereas the flipped
value of any in-range scalar always re-encodes to a full 32 bytes. -/
theorem claim_C3_lamport_ikm_encoding (C : CryptoPrims) (parentKey : Nat)
    (salt : List Nat) :
    (deriveLamport0 C parentKey salt
      = deriveLamportSecretKeyFromIKM C (natToBytesBE parentKey) salt)
    ∧ (deriveLamport1 C parentKey salt
      = deriveLamportSecretKeyFromIKM C
          (natToBytesBE (parentKey ^^^ (2 ^ 256 - 1))) salt)
    ∧ flipBits parentKey 256 = parentKey ^^^ (2 ^ 256 - 1)
    ∧ (parentKey < 2 ^ 255 → (natToBytesBE (flipBits parentKey 256)).length = 32)
    ∧ (0 < parentKey → ∃ b l, natToBytesBE parentKey = b :: l ∧ b ≠ 0)
    ∧ bytesToNatBE (natToBytesBE parentKey) = parentKey := by
  refine ⟨rfl, ?_, flipBits_eq_xor parentKey 256, flip_length_32 parentKey,
    natToBytesBE_head_ne_zero parentKey, natToBytesBE_roundtrip parentKey⟩
  rw [deriveLamport1, flipBits_eq_xor]

/-- Witness for C3 at the concrete scalar 5: the flipped branch re-encodes to
32 bytes while the unflipped branch is the single byte `[5]`. -/
theorem claim_C3_witness :
    deriveLamport1 trivialPrims 5 []
      = deriveLamportSecretKeyFromIKM trivialPrims
          (natToBytesBE (5 ^^^ (2 ^ 256 - 1))) []
    ∧ (natToBytesBE (flipBits 5 256)).length = 32
    ∧ (∃ b l, natToBytesBE 5 = b :: l ∧ b ≠ 0)
    ∧ bytesToNatBE (natToBytesBE 5) = 5 :=
  ⟨(claim_C3_lamport_ikm_encoding trivialPrims 5 []).2.1,
   (claim_C3_lamport_ikm_encoding trivialPrims 5 []).2.2.2.1 (by decide),
   (claim_C3_lamport_ikm_encoding trivialPrims 5 []).2.2.2.2.1 (by decide),
   (claim_C3_lamport_ikm_encoding trivialPrims 5 []).2.2.2.2.2⟩

/-- A path accepted by the grammar has only nonempty decimal-digit runs after
the root marker. -/
theorem grammar_nodes (cs : List Char) (h : matchesPathGrammar cs = true) :
    ∀ s ∈ (splitOnSlash cs).tail, s ≠ [] ∧ s.all Char.isDigit = true := by
  rw [matchesPathGrammar] at h
  cases hs : splitOnSlash cs with
  | nil => rw [hs] at h; exact absurd h (by simp)
  | cons root rest =>
    rw [hs] at h
    simp only [Bool.and_eq_true, decide_eq_true_eq] at h
    intro s hmem
    have hmem' : s ∈ rest := by simpa using hmem
    have := List.all_eq_true.mp h.2 s hmem'
    simp only [Bool.and_eq_true, Bool.not_eq_true'] at this
    refine ⟨?_, this.2⟩
    intro hnil
    subst hnil
    simp at this

/-- On nonempty digit runs, `parseUint32` checks only the 32-bit range. -/
theorem parseUint32_digits (s : List Char) (hne : s ≠ [])
    (hd : s.all Char.isDigit = true) :
    parseUint32 s
      = if digitsToNat s < 4294967296 then DResult.ok (digitsToNat s)
        else DResult.err DeriveErr.numRange := by
  rw [parseUint32, if_neg (by simp [List.isEmpty_iff, hne]), if_neg (by simp [hd])]

/-- When every node is a digit run and some node overflows 32 bits, the
index-collecting loop reports the numeric-range error. -/
theorem parseIndices_overflow :
    ∀ nodes : List (List Char),
      (∀ s ∈ nodes, s ≠ [] ∧ s.all Char.isDigit = true) →
      (∃ s ∈ nodes, 4294967296 ≤ digitsToNat s) →
      parseIndices nodes = DResult.err DeriveErr.numRange := by
  intro nodes
  induction nodes with
  | nil => intro _ hex; simp at hex
  | cons s rest ih =>
    intro hall hex
    have hs := hall s (List.mem_cons_self s rest)
    simp only [parseIndices]
    rw [parseUint32_digits s hs.1 hs.2]
    by_cases hov : 4294967296 ≤ digitsToNat s
    · rw [if_neg (by omega)]
    · rw [if_pos (by omega)]
      have hex' : ∃ t ∈ rest, 4294967296 ≤ digitsToNat t := by
        rcases hex with ⟨t, hmem, ht⟩
        rcases List.mem_cons.mp hmem with h1 | h2
        · subst h1; exact absurd ht hov
        · exact ⟨t, h2, ht⟩
      rw [ih (fun t hm => hall t (List.mem_cons_of_mem s hm)) hex']

/-- C8 (counterexample): the claim's whitespace-removal reading fails on a
path containing a tab: after whitespace removal `m/<tab>1` matches the
grammar and would parse to `[1]`, but the source strips only spaces, so the
regular expression rejects the tab and `parsePath` returns the invalid-path
error. -/
theorem claim_C8_counterexample :
    matchesPathGrammar (("m/\t1".toList).filter fun c => !c.isWhitespace) = true
    ∧ parsePathClaimWS ("m/\t1".toList) = DResult.ok [1]
    ∧ parsePath ("m/\t1".toList) = DResult.err DeriveErr.invalidPath :=
  ⟨by decide, by decide, by decide⟩

/-- C8 (amended): `parsePath` removes space characters (only), fails with the
invalid-path error exactly when the space-stripped string does not match the
grammar `m(/[0-9]+)*`, and fails with the numeric-range error when a segment
does not fit in 32 bits; `m` parses to the empty index list, `m/0` to `[0]`,
and `m//1`, `1/2` and `m/4294967296` all fail. -/
theorem claim_C8_parse_behavior :
    (∀ cs, parsePath cs
        = if matchesPathGrammar (stripSpaces cs)
          then parseIndices (splitOnSlash (stripSpaces cs)).tail
          else DResult.err DeriveErr.invalidPath)
    ∧ parsePath ("m".toList) = DResult.ok []
    ∧ parsePath ("m/0".toList) = DResult.ok [0]
    ∧ parsePath ("m//1".toList) = DResult.err DeriveErr.invalidPath
    ∧ parsePath ("1/2".toList) = DResult.err DeriveErr.invalidPath
    ∧ parsePath ("m/4294967296".toList) = DResult.err DeriveErr.numRange
    ∧ (∀ cs s, matchesPathGrammar (stripSpaces cs) = true →
        s ∈ (splitOnSlash (stripSpaces cs)).tail → 4294967296 ≤ digitsToNat s →
        parsePath cs = DResult.err DeriveErr.numRange) := by
  refine ⟨fun cs => rfl, by decide, by decide, by decide, by decide, by decide, ?_⟩
  intro cs s hg hmem hov
  show (if matchesPathGrammar (stripSpaces cs)
      then parseIndices (splitOnSlash (stripSpaces cs)).tail
      else DResult.err DeriveErr.invalidPath) = DResult.err DeriveErr.numRange
  rw [if_pos hg]
  exact parseIndices_overflow _ (grammar_nodes _ hg) ⟨s, hmem, hov⟩

/-- Witness for C8: the overflowing segment of `m/4294967296` produces the
numeric-range error through the general overflow clause. -/
theorem claim_C8_witness :
    parsePath ("m/4294967296".toList) = DResult.err DeriveErr.numRange :=
  claim_C8_parse_behavior.2.2.2.2.2.2 ("m/4294967296".toList) ("4294967296".toList)
    (by decide) (by decide) (by decide)

/-- A successful chunk read yields exactly `count` chunks of 32 bytes each. -/
theorem readChunks_props (C : CryptoPrims) (prk info : List Nat) :
    ∀ count start l, readChunks C prk info start count = some l →
      l.length = count ∧ ∀ c ∈ l, c.length = 32 := by
  intro count
  induction count with
  | zero =>
    intro start l h
    simp only [readChunks, Option.some.injEq] at h
    subst h
    simp
  | succ n ih =>
    intro start l h
    simp only [readChunks] at h
    cases he : expandRead C prk info start 32 with
    | none => rw [he] at h; exact absurd h (by simp)
    | some chunk =>
      rw [he] at h
      cases hr : readChunks C prk info (start + 32) n with
      | none => rw [hr] at h; exact absurd h (by simp)
      | some rest =>
        rw [hr] at h
        simp only [Option.some.injEq] at h
        subst h
        have hchunk : chunk.length = 32 := by
          rw [expandRead] at he
          by_cases hc : start + 32 ≤ 255 * 32
          · rw [if_pos hc] at he
            simp only [Option.some.injEq] at he
            rw [← he]
            simp
          · rw [if_neg hc] at he; exact absurd he (by simp)
        obtain ⟨hlen, hall⟩ := ih (start + 32) rest hr
        refine ⟨by simp [hlen], ?_⟩
        intro c hc
        rcases List.mem_cons.mp hc with h1 | h2
        · rw [h1]; exact hchunk
        · exact hall c h2

/-- Go `copy` into an aligned window: copying `d` over the `n` bytes that
start right after the prefix `P` replaces exactly those bytes. -/
theorem copyInto_aligned (P X d : List Nat) (start stop n : Nat)
    (hP : P.length = start) (hstop : stop = start + n) (hd : d.length = n) :
    copyInto (P ++ X) start stop d = P ++ (d ++ X.drop n) := by
  subst hd
  subst hstop
  subst hP
  simp only [copyInto]
  have h1 : P.length + d.length - P.length = d.length := by omega
  rw [h1, Nat.min_self, List.take_length, List.take_left, List.drop_append,
    List.append_assoc]

/-- Dropping the first `n` zeros of a longer zero run. -/
theorem drop_replicate_append (m n : Nat) (X : List Nat) :
    (List.replicate (n + m) (0 : Nat) ++ X).drop n = List.replicate m 0 ++ X := by
  rw [List.replicate_add, List.append_assoc, List.drop_left' (List.length_replicate n 0)]

/-- The buffer-filling loop of the source equals digest concatenation: with
the two digest regions already filled up to index `i` (prefixes `A` and `B`)
and zeros elsewhere, running the loop for the remaining `count` indices
appends the remaining `lamport0` digests after `A` and the remaining
`lamport1` digests after `B`. -/
theorem composeLoop_flatten (C : CryptoPrims) (l0 l1 : List (List Nat))
    (h0 : l0.length = 255) (h1 : l1.length = 255) :
    ∀ (count i : Nat) (A B : List Nat),
      A.length = i * 32 → B.length = i * 32 → i + count = 255 →
      composeLoop C l0 l1
        (A ++ List.replicate (count * 32) 0 ++ B ++ List.replicate (count * 32) 0) i count
      = A ++ ((l0.drop i).map C.sha256).flatten ++ B ++ ((l1.drop i).map C.sha256).flatten := by
  intro count
  induction count with
  | zero =>
    intro i A B hA hB hi
    have hi' : i = 255 := by omega
    subst hi'
    have d0 : l0.drop 255 = [] := by rw [← h0]; exact List.drop_length l0
    have d1 : l1.drop 255 = [] := by rw [← h1]; exact List.drop_length l1
    simp [composeLoop, d0, d1]
  | succ k ihk =>
    intro i A B hA hB hi
    have hilt0 : i < l0.length := by omega
    have hilt1 : i < l1.length := by omega
    have hd0 : (C.sha256 (l0.getD i [])).length = 32 := C.sha256_len _
    have hd1 : (C.sha256 (l1.getD i [])).length = 32 := C.sha256_len _
    simp only [composeLoop]
    simp only [List.append_assoc]
    rw [copyInto_aligned A
      (List.replicate ((k + 1) * 32) 0 ++ (B ++ List.replicate ((k + 1) * 32) 0))
      (C.sha256 (l0.getD i [])) (i * 32) ((i + 1) * 32) 32 hA (by ring) hd0]
    rw [show (k + 1) * 32 = 32 + k * 32 from by ring, drop_replicate_append]
    have e2 : A ++ (C.sha256 (l0.getD i [])
          ++ (List.replicate (k * 32) 0 ++ (B ++ List.replicate (32 + k * 32) 0)))
        = (A ++ (C.sha256 (l0.getD i []) ++ (List.replicate (k * 32) 0 ++ B)))
          ++ List.replicate (32 + k * 32) 0 := by
      simp [List.append_assoc]
    rw [e2]
    rw [copyInto_aligned
      (A ++ (C.sha256 (l0.getD i []) ++ (List.replicate (k * 32) 0 ++ B)))
      (List.replicate (32 + k * 32) 0)
      (C.sha256 (l1.getD i [])) (i * 32 + 255 * 32) ((i + 1) * 32 + 255 * 32) 32
      (by simp only [List.length_append, List.length_replicate, hA, hB, hd0]; omega)
      (by ring) hd1]
    rw [List.drop_replicate, show 32 + k * 32 - 32 = k * 32 from by omega]
    have e3 : (A ++ (C.sha256 (l0.getD i []) ++ (List.replicate (k * 32) 0 ++ B)))
          ++ (C.sha256 (l1.getD i []) ++ List.replicate (k * 32) 0)
        = (A ++ C.sha256 (l0.getD i [])) ++ List.replicate (k * 32) 0
          ++ (B ++ C.sha256 (l1.getD i [])) ++ List.replicate (k * 32) 0 := by
      simp [List.append_assoc]
    rw [e3]
    rw [ihk (i + 1) (A ++ C.sha256 (l0.getD i [])) (B ++ C.sha256 (l1.getD i []))
      (by simp only [List.length_append, hA, hd0]; ring)
      (by simp only [List.length_append, hB, hd1]; ring)
      (by omega)]
    rw [List.drop_eq_getElem_cons hilt0, List.drop_eq_getElem_cons hilt1,
      ← List.getD_eq_getElem l0 [] hilt0, ← List.getD_eq_getElem l1 [] hilt1]
    simp [List.append_assoc]

/-- The source's composed buffer is the 255 `lamport0` digests followed by
the 255 `lamport1` digests, in chunk order. -/
theorem composeLamport_flatten (C : CryptoPrims) (l0 l1 : List (List Nat))
    (h0 : l0.length = 255) (h1 : l1.length = 255) :
    composeLamport C l0 l1
      = (l0.map C.sha256).flatten ++ (l1.map C.sha256).flatten := by
  have base := composeLoop_flatten C l0 l1 h0 h1 255 0 [] [] (by simp) (by simp) (by omega)
  simp only [List.nil_append, List.append_nil, List.drop_zero] at base
  rw [composeLamport, show (2 * 255 * 32) = 255 * 32 + 255 * 32 from by norm_num,
    List.replicate_add]
  exact base

/-- Flattening a list of 32-byte strings multiplies the length by 32. -/
theorem flatten_const_length (L : List (List Nat)) (h : ∀ c ∈ L, c.length = 32) :
    L.flatten.length = L.length * 32 := by
  induction L with
  | nil => simp
  | cons c rest ih =>
    simp only [List.flatten_cons, List.length_append, List.length_cons,
      h c (List.mem_cons_self c rest),
      ih fun x hx => h x (List.mem_cons_of_mem c hx)]
    ring

/-- C2: for every parent scalar and index, the Lamport public key uses the
big-endian 4-byte index as salt, expands the two 255-chunk secrets, hashes
each 32-byte chunk independently, concatenates all 255 `lamport0` digests
followed by all 255 `lamport1` digests (each in chunk order) into a
16320-byte buffer, and returns the single 32-byte SHA-256 digest of that
buffer. -/
theorem claim_C2_lamport_public_key (C : CryptoPrims) (parentKey index : Nat)
    (l0 l1 : List (List Nat))
    (h0 : deriveLamport0 C parentKey (putUint32BE index) = some l0)
    (h1 : deriveLamport1 C parentKey (putUint32BE index) = some l1) :
    deriveLamportPublicKeyFromParentKey C parentKey index
      = some (C.sha256 ((l0.map C.sha256).flatten ++ (l1.map C.sha256).flatten))
    ∧ l0.length = 255 ∧ l1.length = 255
    ∧ ((l0.map C.sha256).flatten ++ (l1.map C.sha256).flatten).length = 16320
    ∧ (C.sha256 ((l0.map C.sha256).flatten ++ (l1.map C.sha256).flatten)).length = 32 := by
  have hp0 : readChunks C (C.extract (natToBytesBE parentKey) (putUint32BE index)) [] 0 255
      = some l0 := h0
  have hp1 : readChunks C
      (C.extract (natToBytesBE (flipBits parentKey 256)) (putUint32BE index)) [] 0 255
      = some l1 := h1
  obtain ⟨hl0, _⟩ := readChunks_props C _ [] 255 0 l0 hp0
  obtain ⟨hl1, _⟩ := readChunks_props C _ [] 255 0 l1 hp1
  have hflat : ((l0.map C.sha256).flatten ++ (l1.map C.sha256).flatten).length = 16320 := by
    rw [List.length_append,
      flatten_const_length _ (by intro c hc
                                 obtain ⟨x, _, hx⟩ := List.mem_map.mp hc
                                 rw [← hx]; exact C.sha256_len x),
      flatten_const_length _ (by intro c hc
                                 obtain ⟨x, _, hx⟩ := List.mem_map.mp hc
                                 rw [← hx]; exact C.sha256_len x)]
    simp [hl0, hl1]
  refine ⟨?_, hl0, hl1, hflat, C.sha256_len _⟩
  show (match deriveLamport0 C parentKey (putUint32BE index) with
    | none => none
    | some l0 =>
      match deriveLamport1 C parentKey (putUint32BE index) with
      | none => none
      | some l1 => some (C.sha256 (composeLamport C l0 l1))) = _
  rw [h0, h1]
  show some (C.sha256 (composeLamport C l0 l1)) = _
  rw [composeLamport_flatten C l0 l1 hl0 hl1]

/-- Witness for C2: the concrete Lamport public key at parent scalar 5 and
index 0 under `trivialPrims`. -/
theorem claim_C2_witness :
    deriveLamportPublicKeyFromParentKey trivialPrims 5 0
      = some (trivialPrims.sha256
          (((List.replicate 255 (List.replicate 32 1)).map trivialPrims.sha256).flatten
            ++ ((List.replicate 255 (List.replicate 32 1)).map trivialPrims.sha256).flatten)) :=
  (claim_C2_lamport_public_key trivialPrims 5 0
    (List.replicate 255 (List.replicate 32 1)) (List.replicate 255 (List.replicate 32 1))
    (by decide) (by decide)).1

end GoBLS12381
